import Mathlib

/-!
Verification of the PDF data-collection pipeline (Data-collection-pipeline.py).

The Python source is shallowly embedded: the checkpoint dictionary becomes an
explicit `Checkpoint` value, filesystem reads become explicit lists of existing
path names, the Gemini file-state polling loop becomes a fuel-indexed
observation function, and Python dict / list / string operations are translated
to executable Lean functions over `List` and `String`.
-/

/-- One entry of the checkpoint's `failed` list: the dict
`\x7b'pdf': …, 'error': …, 'failed_at': …\x7d` appended by `_mark_failed`. -/
structure FailureRecord where
  pdf : String
  error : String
  failedAt : String
deriving DecidableEq, Repr

/-- One entry of the checkpoint's `stats` mapping: the dict
`\x7b'num_records': …, 'processed_at': …\x7d` written by `_mark_processed`. -/
structure StatEntry where
  numRecords : Nat
  processedAt : String
deriving DecidableEq, Repr

/-- The checkpoint dictionary `\x7b'processed': [...], 'failed': [...],
'stats': \x7b...\x7d\x7d` persisted in `pipeline_checkpoint.json`.  `stats` is a
Python dict, modelled as an insertion-ordered association list. -/
structure Checkpoint where
  processed : List String
  failed : List FailureRecord
  stats : List (String × StatEntry)
deriving DecidableEq, Repr

/-- `_load_checkpoint` when no checkpoint file exists. -/
def emptyCheckpoint : Checkpoint := ⟨[], [], []⟩

/-- `_is_processed`: `pdf_name in self.checkpoint['processed']`. -/
def isProcessed (cp : Checkpoint) (pdfName : String) : Bool :=
  decide (pdfName ∈ cp.processed)

/-- Python dict assignment `d[k] = v` on an insertion-ordered association
list: replace the value in place when the key is present, else append. -/
def dictSet {α : Type} (d : List (String × α)) (k : String) (v : α) :
    List (String × α) :=
  if d.any (fun p => p.1 = k) then d.map (fun p => if p.1 = k then (k, v) else p)
  else d ++ [(k, v)]

/-- `_mark_processed(pdf_name, num_records)`: append the name to `processed`
only when absent, then overwrite `stats[pdf_name]`.  (`now` stands for
`datetime.now().isoformat()`.) -/
def markProcessedCp (cp : Checkpoint) (pdfName : String) (numRecords : Nat)
    (now : String) : Checkpoint :=
  { cp with
    processed :=
      if pdfName ∈ cp.processed then cp.processed else cp.processed ++ [pdfName]
    stats := dictSet cp.stats pdfName ⟨numRecords, now⟩ }

/-- `_mark_failed(pdf_name, error)`: append one failure record. -/
def markFailedCp (cp : Checkpoint) (pdfName : String) (error : String)
    (now : String) : Checkpoint :=
  { cp with failed := cp.failed ++ [⟨pdfName, error, now⟩] }

/-- In-memory checkpoint plus the persisted copy on disk
(`pipeline_checkpoint.json`). -/
structure PState where
  mem : Checkpoint
  disk : Checkpoint
deriving DecidableEq, Repr

/-- `_save_checkpoint`: rewrite the whole file from the in-memory state. -/
def saveCheckpoint (s : PState) : PState := ⟨s.mem, s.mem⟩

/-- The two state-changing checkpoint calls. -/
inductive CheckpointOp
  | markProcessed (pdfName : String) (numRecords : Nat) (now : String)
  | markFailed (pdfName : String) (error : String) (now : String)
deriving DecidableEq, Repr

/-- Apply one call: mutate the in-memory dict, then `_save_checkpoint()`
immediately, exactly as `_mark_processed` / `_mark_failed` do. -/
def applyOp (s : PState) : CheckpointOp → PState
  | .markProcessed pdfName numRecords now =>
      saveCheckpoint ⟨markProcessedCp s.mem pdfName numRecords now, s.disk⟩
  | .markFailed pdfName error now =>
      saveCheckpoint ⟨markFailedCp s.mem pdfName error now, s.disk⟩

/-- A whole sequence of checkpoint calls. -/
def runOps (s : PState) (ops : List CheckpointOp) : PState :=
  ops.foldl applyOp s

/-- Discovery step of `run`:
`to_process = [p for p in all_pdfs if not self._is_processed(p.name)]`.
Candidates are identified by their file names. -/
def toProcess (cp : Checkpoint) (allPdfs : List String) : List String :=
  allPdfs.filter (fun p => !(isProcessed cp p))

/-- Python list slicing `l[:m]` for an `int` bound (negative bounds count from
the end). -/
def pySliceTo {α : Type} (l : List α) (m : Int) : List α :=
  if 0 ≤ m then l.take m.toNat else l.take (l.length - (-m).toNat)

/-- The `max_papers` limit in `run`:
`if max_papers: to_process = to_process[:max_papers]`.
Python truthiness makes both `None` and `0` skip the truncation. -/
def applyMaxPapers (maxPapers : Option Int) (l : List String) : List String :=
  match maxPapers with
  | none => l
  | some m => if m ≠ 0 then pySliceTo l m else l

/-- JSON values as returned by `json.loads`.  Numeric payloads are abstracted
to `Int`; no claim depends on numeric values.  Objects are insertion-ordered
association lists, matching Python dicts. -/
inductive Json
  | null
  | bool (b : Bool)
  | num (n : Int)
  | str (s : String)
  | arr (items : List Json)
  | obj (fields : List (String × Json))

/-- The shape check in `process_pdf` after `json.loads`:
a list is used directly; a dict is wrapped as a one-element list; anything
else becomes `[]` and raises `ValueError` (modelled as `none`). -/
def coerceMaterials : Json → Option (List Json)
  | Json.arr items => some items
  | Json.obj fields => some [Json.obj fields]
  | _ => none

/-- The same step including the `json.loads` outcome: unparsable text
(`none`) raises `JSONDecodeError`, so no material list is produced. -/
def parsedMaterials : Option Json → Option (List Json)
  | none => none
  | some j => coerceMaterials j

/-- The failure records contributed by a sequence of checkpoint calls, in
order: one per `markFailed`, none per `markProcessed`. -/
def failedAdds : List CheckpointOp → List FailureRecord
  | [] => []
  | .markProcessed _ _ _ :: rest => failedAdds rest
  | .markFailed pdfName error now :: rest => ⟨pdfName, error, now⟩ :: failedAdds rest

/-- Python dict lookup `d[k]` on an insertion-ordered association list. -/
def pyLookup {α : Type} (d : List (String × α)) (k : String) : Option α :=
  match d.find? (fun p => decide (p.1 = k)) with
  | some p => some p.2
  | none => none

/-- Python `\x7b**a, **b\x7d`: start from `a`, then assign every pair of `b`
in order, later assignments overwriting earlier values of the same key. -/
def dictMergeAll {α : Type} (a b : List (String × α)) : List (String × α) :=
  b.foldl (fun acc p => dictSet acc p.1 p.2) a

/-- The provenance dict built in `process_pdf` for every record:
`source_pdf`, `extracted_at`, `provider`. -/
def provMeta (pdfName now provider : String) : List (String × Json) :=
  [("source_pdf", Json.str pdfName), ("extracted_at", Json.str now),
   ("provider", Json.str provider)]

/-- `item_with_meta = \x7b**metadata, **item\x7d` followed by
`item.clear(); item.update(item_with_meta)`: the record becomes the merge of
the provenance dict with the extracted record. -/
def stampRecord (pdfName now provider : String) (item : List (String × Json)) :
    List (String × Json) :=
  dictMergeAll (provMeta pdfName now provider) item

/-- The metadata loop over all records of a parsed result.  A non-dict record
makes `item.clear()` raise, failing the whole document, hence `Option`. -/
def stampAll (pdfName now provider : String) : List Json → Option (List Json)
  | [] => some []
  | Json.obj fields :: rest =>
    match stampAll pdfName now provider rest with
    | some out => some (Json.obj (stampRecord pdfName now provider fields) :: out)
    | none => none
  | _ => none

/-- Python `\s` on the ASCII range: the whitespace characters recognised by
`str.strip()` and `re.sub(r"\s+", ...)`. -/
def pyIsSpace (c : Char) : Bool :=
  c = ' ' || c = '\t' || c = '\n' || c = '\r' || c = '\x0b' || c = '\x0c'

/-- Python `str.strip()`: drop whitespace from both ends. -/
def stripWhite (l : List Char) : List Char :=
  ((l.dropWhile pyIsSpace).reverse.dropWhile pyIsSpace).reverse

/-- Does the text start with the given pattern? -/
def leadsWith : List Char → List Char → Bool
  | [], _ => true
  | _ :: _, [] => false
  | p :: ps, c :: cs => p = c && leadsWith ps cs

/-- Split at the first occurrence of `pat`: returns the part before and the
part after it, or `none` when `pat` does not occur. -/
def splitFirst (pat : List Char) : List Char → Option (List Char × List Char)
  | [] => if pat = [] then some ([], []) else none
  | c :: cs =>
    if leadsWith pat (c :: cs) then some ([], (c :: cs).drop pat.length)
    else
      match splitFirst pat cs with
      | some (pre, post) => some (c :: pre, post)
      | none => none

/-- The fence-stripping step of `process_pdf`: prefer the segment after
 ```json , else the segment after the first  ```  fence, in both cases cut at
the next fence and stripped; otherwise the text is used as-is.
(`text.split(pat)[1]` is the part after the first occurrence of `pat` cut at
its next occurrence; the subsequent `.split(3 backticks)[0]` cut makes the
composition equal to cutting the part after the first occurrence at the next
fence.) -/
def extractFenced (t : List Char) : List Char :=
  let jsonPat := "```json".data
  let fencePat := "```".data
  match splitFirst jsonPat t with
  | some (_, post) =>
    stripWhite (match splitFirst fencePat post with
                | some (pre, _) => pre
                | none => post)
  | none =>
    match splitFirst fencePat t with
    | some (_, post) =>
      stripWhite (match splitFirst fencePat post with
                  | some (pre, _) => pre
                  | none => post)
    | none => t

/-- Outcome of the provider call in `process_pdf`: either the API raised, or
it returned `response.text`. -/
inductive SvcOutcome
  | raised (msg : String)
  | reply (text : String)

/-- `process_pdf`, with `json.loads` abstracted as `parseJson` and the service
interaction as `svc`.  Returns the parsed records (or `none`), the updated
checkpoint, and whether the extraction service was contacted. -/
def processPdf (fileExists : Bool) (svc : SvcOutcome)
    (parseJson : String → Option Json) (now provider : String)
    (cp : Checkpoint) (pdfName : String) :
    Option (List Json) × Checkpoint × Bool :=
  if !fileExists then (none, cp, false)
  else
    match svc with
    | .raised msg => (none, markFailedCp cp pdfName msg now, true)
    | .reply text =>
      if text = "" then
        (none, markFailedCp cp pdfName "Empty response from API" now, true)
      else
        let cleaned := String.mk (extractFenced (stripWhite text.data))
        match parseJson cleaned with
        | none => (none, markFailedCp cp pdfName "JSONDecodeError" now, true)
        | some j =>
          match coerceMaterials j with
          | none =>
            (none, markFailedCp cp pdfName "Output is not a valid JSON list" now, true)
          | some materials =>
            match stampAll pdfName now provider materials with
            | none => (none, markFailedCp cp pdfName "AttributeError" now, true)
            | some stamped => (some stamped, cp, true)

/-- The reserved characters removed by `clean_filename`. -/
def invalidChars : List Char := ['<', '>', ':', '"', '/', '\\', '|', '?', '*']

/-- `unicodedata.normalize("NFKD", text).encode("ascii", "ignore")`: on the
ASCII fragment NFKD is the identity, so the composition keeps exactly the
ASCII characters.  (What NFKD decomposition turns non-ASCII characters into
is abstracted away; every property proved below is insensitive to what this
stage keeps or drops, since all later stages re-enforce them.) -/
def toAsciiIgnore (l : List Char) : List Char := l.filter (fun c => c.toNat ≤ 127)

/-- Collapse each run of spaces to a single space: together with mapping
every whitespace character to a space first, this is
`re.sub(r"\s+", " ", text)`. -/
def squeezeSpaces : List Char → List Char
  | [] => []
  | a :: rest =>
    if a = ' ' ∧ (squeezeSpaces rest).head? = some ' ' then squeezeSpaces rest
    else a :: squeezeSpaces rest

/-- Python `str.strip(chars)`: drop characters of `chars` from both ends. -/
def stripChars (chars : List Char) (l : List Char) : List Char :=
  ((l.dropWhile (fun c => c ∈ chars)).reverse.dropWhile (fun c => c ∈ chars)).reverse

/-- `text.rsplit(" ", 1)[0]`: everything before the last space, or the whole
text when it contains no space. -/
def cutAtLastSpace (l : List Char) : List Char :=
  if ' ' ∈ l then ((l.reverse.dropWhile (fun c => c ≠ ' ')).drop 1).reverse
  else l

/-- The cleaning chain of `clean_filename` before truncation: ASCII
reduction, reserved-character removal, whitespace collapse, `.strip()`,
`.strip(". ")`. -/
def cleanCore (l : List Char) : List Char :=
  stripChars ['.', ' ']
    (stripWhite
      (squeezeSpaces
        (((toAsciiIgnore l).filter (fun c => c ∉ invalidChars)).map
          (fun c => if pyIsSpace c then ' ' else c))))

/-- `if len(text) > max_len: text = text[:max_len].rsplit(" ", 1)[0]`. -/
def truncateClean (t : List Char) (maxLen : Nat) : List Char :=
  if maxLen < t.length then cutAtLastSpace (t.take maxLen) else t

/-- `clean_filename(text, max_len)`: clean, truncate to `max_len` at the last
space of the truncated prefix (whole prefix when it has no space), and fall
back to `"Untitled"` when the outcome is empty (`return text or "Untitled"`). -/
def clean_filename (s : String) (maxLen : Nat) : String :=
  String.mk
    (if truncateClean (cleanCore s.data) maxLen = [] then "Untitled".data
     else truncateClean (cleanCore s.data) maxLen)

/-- The skip test of `rename_input_pdfs`:
`re.match(r"^10\.\d\x7b4,9\x7d", original_name)` — the name starts with
`10.` followed by at least four digits. -/
def isStandardizedL (l : List Char) : Bool :=
  (l.take 3 = ['1', '0', '.']) && (4 ≤ ((l.drop 3).takeWhile Char.isDigit).length)

/-- The skip test on a file name. -/
def isStandardized (name : String) : Bool := isStandardizedL name.data

/-- The canonical name built by `rename_input_pdfs`: with a DOI,
`clean_filename(doi, 50) ++ " - " ++ clean_filename(title, 100) ++ ".pdf"`;
without one, `"NO_DOI - " ++ clean_filename(title, 150) ++ ".pdf"`. -/
def canonicalName (doi : Option String) (title : String) : String :=
  match doi with
  | some d => clean_filename d 50 ++ " - " ++ clean_filename title 100 ++ ".pdf"
  | none => "NO_DOI - " ++ clean_filename title 150 ++ ".pdf"

/-- File states of the Gemini file API as checked in `_process_with_gemini`:
the loop runs while the state name is `PROCESSING`, a `FAILED` state raises,
any other state proceeds to generation. -/
inductive GeminiFileState
  | processing
  | ready
  | failed
deriving DecidableEq, Repr

/-- The upload wait loop
`while uploaded_file.state.name == "PROCESSING": time.sleep(1); uploaded_file = genai.get_file(...)`.
`observe k` is the state visible at the k-th check; one time unit elapses
between consecutive checks.  `fuel` bounds how many checks are inspected:
`some s` means the loop exited with state `s` within `fuel` checks, `none`
means it is still polling after `fuel` checks. -/
def pollFile (observe : Nat → GeminiFileState) : Nat → Nat → Option GeminiFileState
  | _, 0 => none
  | k, fuel + 1 =>
    if observe k = GeminiFileState.processing then pollFile observe (k + 1) fuel
    else some (observe k)

/-- After the wait: `if uploaded_file.state.name == "FAILED": raise ...`. -/
def geminiAfterWait (s : GeminiFileState) : Except String Unit :=
  if s = GeminiFileState.failed then Except.error "Gemini processing failed state"
  else Except.ok ()

/-- Numeric value of a decimal digit character. -/
def charVal (c : Char) : Nat := c.toNat - 48

/-- Decimal digits of `n`, most significant first — the list produced by
`Nat.toDigits 10` (proved below), i.e. the characters of `f"\x7bn\x7d"`. -/
def decDigits (n : Nat) : List Char :=
  if _ : n < 10 then [Nat.digitChar n]
  else decDigits (n / 10) ++ [Nat.digitChar (n % 10)]
decreasing_by exact Nat.div_lt_self (by omega) (by omega)

theorem toDigitsCore_eq_decDigits (fuel : Nat) :
    ∀ (n : Nat) (acc : List Char), n < fuel →
      Nat.toDigitsCore 10 fuel n acc = decDigits n ++ acc := by
  induction fuel with
  | zero => intro n acc h; omega
  | succ f ih =>
    intro n acc h
    simp only [Nat.toDigitsCore]
    by_cases h10 : n / 10 = 0
    · have hn : n < 10 := (Nat.div_eq_zero_iff (by omega)).mp h10
      rw [if_pos h10, decDigits, dif_pos hn, Nat.mod_eq_of_lt hn]
      rfl
    · have hn : ¬ n < 10 := by
        intro hlt
        exact h10 ((Nat.div_eq_zero_iff (by omega)).mpr hlt)
      have hdivlt : n / 10 < n := Nat.div_lt_self (by omega) (by omega)
      rw [if_neg h10, ih (n / 10) _ (by omega)]
      conv_rhs => rw [decDigits]
      rw [dif_neg hn, List.append_assoc]
      rfl

theorem toDigits_eq_decDigits (n : Nat) : Nat.toDigits 10 n = decDigits n := by
  have := toDigitsCore_eq_decDigits (n + 1) n [] (by omega)
  simpa [Nat.toDigits] using this

theorem charVal_digitChar (m : Nat) (h : m < 10) :
    charVal (Nat.digitChar m) = m := by
  interval_cases m <;> rfl

theorem foldl_decDigits (n : Nat) :
    ∀ a : Nat, (decDigits n).foldl (fun r c => 10 * r + charVal c) a =
      a * 10 ^ (decDigits n).length + n := by
  induction n using Nat.strong_induction_on with
  | _ n ih =>
    intro a
    by_cases h : n < 10
    · rw [decDigits, dif_pos h]
      simp [List.foldl, charVal_digitChar n h]
      ring
    · have hdivlt : n / 10 < n := Nat.div_lt_self (by omega) (by omega)
      have hm : n % 10 < 10 := Nat.mod_lt _ (by omega)
      rw [decDigits, dif_neg h, List.foldl_append, ih (n / 10) hdivlt a]
      simp [List.foldl, charVal_digitChar _ hm, List.length_append]
      calc 10 * (a * 10 ^ (decDigits (n / 10)).length + n / 10) + n % 10
          = a * (10 ^ (decDigits (n / 10)).length * 10) +
              (10 * (n / 10) + n % 10) := by ring
        _ = a * 10 ^ ((decDigits (n / 10)).length + 1) + n := by
            rw [pow_succ, Nat.div_add_mod]

theorem decDigits_injective : Function.Injective decDigits := by
  intro m n h
  have hm := foldl_decDigits m 0
  have hn := foldl_decDigits n 0
  rw [h] at hm
  simp only [Nat.zero_mul] at hm hn
  omega

theorem repr_nat_injective : Function.Injective Nat.repr := by
  intro m n h
  have hS : (Nat.toDigits 10 m).asString = (Nat.toDigits 10 n).asString := h
  rw [toDigits_eq_decDigits, toDigits_eq_decDigits] at hS
  have hd : decDigits m = decDigits n := congrArg String.data hS
  exact decDigits_injective hd

/-- The candidate path `f"\x7bbase_name\x7d (\x7bcounter\x7d)\x7bextension\x7d"`
built by the `get_unique_path` loop. -/
def candName (stem ext : String) (counter : Nat) : String :=
  stem ++ " (" ++ Nat.repr counter ++ ")" ++ ext

theorem candName_injective (stem ext : String) :
    Function.Injective (candName stem ext) := by
  intro m n h
  apply repr_nat_injective
  have hd := congrArg String.data h
  simp only [candName, String.data_append, List.append_assoc] at hd
  have h1 := List.append_cancel_left hd
  have h2 := List.append_cancel_left h1
  have h3 := List.append_cancel_right h2
  exact String.ext h3

/-- The filesystem holds finitely many paths, and the candidate names are
pairwise distinct, so some counter yields a fresh name: the loop of
`get_unique_path` terminates. -/
theorem candName_free_exists (occupied : List String) (stem ext : String) :
    ∃ j, candName stem ext (2 + j) ∉ occupied := by
  by_contra hall
  push_neg at hall
  have hinj : Function.Injective (fun j : Fin (occupied.length + 1) =>
      candName stem ext (2 + j.val)) := by
    intro i j hij
    have := candName_injective stem ext hij
    exact Fin.ext (by omega)
  have hsub : (Finset.univ.image (fun j : Fin (occupied.length + 1) =>
      candName stem ext (2 + j.val))) ⊆ occupied.toFinset := by
    intro x hx
    rw [Finset.mem_image] at hx
    obtain ⟨j, -, rfl⟩ := hx
    rw [List.mem_toFinset]
    exact hall j.val
  have hcard := Finset.card_le_card hsub
  rw [Finset.card_image_of_injective _ hinj, Finset.card_univ,
    Fintype.card_fin] at hcard
  have := List.toFinset_card_le occupied
  omega

/-- `get_unique_path`: the paths existing on disk are `occupied`; the
candidate path is split as stem and extension.  If the path does not exist
it is returned unchanged; otherwise counters 2, 3, … are tried in order and
the first non-colliding candidate is returned (`Nat.find` is the exit value
of the while loop).  The embedding is pure: `occupied` is only read. -/
def get_unique_path (occupied : List String) (stem ext : String) : String :=
  if stem ++ ext ∈ occupied then
    candName stem ext (2 + Nat.find (candName_free_exists occupied stem ext))
  else stem ++ ext

theorem isProcessed_true_iff (cp : Checkpoint) (name : String) :
    isProcessed cp name = true ↔ name ∈ cp.processed := by
  simp [isProcessed]

/-- C1: every document name in the checkpoint's processed set satisfies
`isProcessed`, is excluded from the candidate list for every ordering of the
candidates, and a folder all of whose documents are already processed yields
an empty work list, so the run processes zero documents. -/
theorem discovery_excludes_processed
    (cp : Checkpoint) (allPdfs : List String) (name : String)
    (hmem : name ∈ cp.processed) :
    isProcessed cp name = true ∧
    name ∉ toProcess cp allPdfs ∧
    ((∀ p ∈ allPdfs, p ∈ cp.processed) → toProcess cp allPdfs = []) := by
  refine ⟨(isProcessed_true_iff cp name).mpr hmem, ?_, ?_⟩
  · intro hin
    have := List.of_mem_filter hin
    simp [isProcessed] at this
    exact this hmem
  · intro hall
    apply List.filter_eq_nil_iff.mpr
    intro p hp
    simp [isProcessed]
    exact hall p hp

/-- Witness for C1 at a concrete checkpoint and candidate list. -/
theorem discovery_excludes_processed_witness :
    "a.pdf" ∈ (Checkpoint.mk ["a.pdf", "b.pdf"] [] []).processed ∧
    isProcessed (Checkpoint.mk ["a.pdf", "b.pdf"] [] []) "a.pdf" = true ∧
    "a.pdf" ∉ toProcess (Checkpoint.mk ["a.pdf", "b.pdf"] [] []) ["b.pdf", "a.pdf"] ∧
    toProcess (Checkpoint.mk ["a.pdf", "b.pdf"] [] []) ["b.pdf", "a.pdf"] = [] := by
  have h := discovery_excludes_processed
    (Checkpoint.mk ["a.pdf", "b.pdf"] [] []) ["b.pdf", "a.pdf"] "a.pdf" (by decide)
  exact ⟨by decide, h.1, h.2.1, h.2.2 (by decide)⟩

/-- C9: a `max_papers` limit of `0` is falsy in Python, so the candidate list
is not truncated to zero documents: every unprocessed candidate stays in the
work list. -/
theorem max_papers_zero_no_truncation (cp : Checkpoint) (allPdfs : List String) :
    applyMaxPapers (some 0) (toProcess cp allPdfs) = toProcess cp allPdfs := by
  simp [applyMaxPapers]

theorem applyOp_disk_eq_mem (s : PState) (op : CheckpointOp) :
    (applyOp s op).disk = (applyOp s op).mem := by
  cases op <;> rfl

theorem applyOp_nodup (s : PState) (op : CheckpointOp)
    (h : s.mem.processed.Nodup) : (applyOp s op).mem.processed.Nodup := by
  cases op with
  | markProcessed pdfName numRecords now =>
    simp only [applyOp, saveCheckpoint, markProcessedCp]
    split
    · exact h
    · next hnm => simp [List.nodup_append, h, hnm]
  | markFailed pdfName error now => exact h

theorem runOps_nodup (ops : List CheckpointOp) (s : PState)
    (h : s.mem.processed.Nodup) : (runOps s ops).mem.processed.Nodup := by
  induction ops generalizing s with
  | nil => exact h
  | cons op rest ih => exact ih (applyOp s op) (applyOp_nodup s op h)

theorem runOps_failed (ops : List CheckpointOp) (s : PState) :
    (runOps s ops).mem.failed = s.mem.failed ++ failedAdds ops := by
  induction ops generalizing s with
  | nil => simp [runOps, failedAdds]
  | cons op rest ih =>
    have hstep : runOps s (op :: rest) = runOps (applyOp s op) rest := rfl
    rw [hstep, ih]
    cases op with
    | markProcessed pdfName numRecords now => rfl
    | markFailed pdfName error now =>
      show s.mem.failed ++ [⟨pdfName, error, now⟩] ++ failedAdds rest = _
      rw [List.append_assoc]
      rfl

theorem runOps_disk_eq_mem (ops : List CheckpointOp) (s : PState) (h : ops ≠ []) :
    (runOps s ops).disk = (runOps s ops).mem := by
  induction ops generalizing s with
  | nil => exact absurd rfl h
  | cons op rest ih =>
    cases rest with
    | nil => exact applyOp_disk_eq_mem s op
    | cons op2 rest2 => exact ih (applyOp s op) (by simp)

/-- C2: `markProcessed` of an already-present name does not append it again
and never touches the failure list; `markFailed` appends exactly one record
and removes none; across any sequence of calls the processed list stays free
of duplicates and the failure list grows by exactly the records of the
`markFailed` calls in order; and the checkpoint is persisted (disk equals
memory) immediately after every single call, never batched. -/
theorem checkpoint_ops_invariants
    (s : PState) (ops : List CheckpointOp) (cp : Checkpoint)
    (name error now : String) (numRecords : Nat)
    (hnd : s.mem.processed.Nodup) (hmem : name ∈ cp.processed) :
    (markProcessedCp cp name numRecords now).processed = cp.processed ∧
    (markProcessedCp cp name numRecords now).failed = cp.failed ∧
    (markFailedCp cp name error now).failed = cp.failed ++ [⟨name, error, now⟩] ∧
    (runOps s ops).mem.processed.Nodup ∧
    (runOps s ops).mem.failed = s.mem.failed ++ failedAdds ops ∧
    (∀ op, (applyOp s op).disk = (applyOp s op).mem) ∧
    (ops ≠ [] → (runOps s ops).disk = (runOps s ops).mem) := by
  refine ⟨?_, rfl, rfl, runOps_nodup ops s hnd, runOps_failed ops s,
    applyOp_disk_eq_mem s, runOps_disk_eq_mem ops s⟩
  simp [markProcessedCp, hmem]

/-- Witness for C2 at a concrete initial state and call sequence. -/
theorem checkpoint_ops_invariants_witness :
    (PState.mk emptyCheckpoint emptyCheckpoint).mem.processed.Nodup ∧
    "a.pdf" ∈ (Checkpoint.mk ["a.pdf"] [] []).processed ∧
    (markProcessedCp (Checkpoint.mk ["a.pdf"] [] []) "a.pdf" 3 "t0").processed
      = ["a.pdf"] ∧
    (runOps (PState.mk emptyCheckpoint emptyCheckpoint)
      [CheckpointOp.markProcessed "a.pdf" 3 "t1",
       CheckpointOp.markFailed "b.pdf" "boom" "t2"]).mem.processed.Nodup ∧
    (runOps (PState.mk emptyCheckpoint emptyCheckpoint)
      [CheckpointOp.markProcessed "a.pdf" 3 "t1",
       CheckpointOp.markFailed "b.pdf" "boom" "t2"]).disk
      = (runOps (PState.mk emptyCheckpoint emptyCheckpoint)
      [CheckpointOp.markProcessed "a.pdf" 3 "t1",
       CheckpointOp.markFailed "b.pdf" "boom" "t2"]).mem := by
  have h := checkpoint_ops_invariants
    (PState.mk emptyCheckpoint emptyCheckpoint)
    [CheckpointOp.markProcessed "a.pdf" 3 "t1",
     CheckpointOp.markFailed "b.pdf" "boom" "t2"]
    (Checkpoint.mk ["a.pdf"] [] []) "a.pdf" "err" "t0" 3
    (by decide) (by decide)
  exact ⟨by decide, by decide, h.1, h.2.2.2.1, h.2.2.2.2.2.2 (by simp)⟩

/-- C3: after fence stripping, a parsed JSON list is used directly, a single
JSON object becomes a one-element list containing that object, any other
parsed shape is a fatal parse failure, and unparsable text yields no result
at all. -/
theorem response_shape_coercion :
    (∀ items, coerceMaterials (Json.arr items) = some items) ∧
    (∀ fields, coerceMaterials (Json.obj fields) = some [Json.obj fields]) ∧
    (∀ j, (∀ items, j ≠ Json.arr items) → (∀ fields, j ≠ Json.obj fields) →
      coerceMaterials j = none) ∧
    parsedMaterials none = none := by
  refine ⟨fun _ => rfl, fun _ => rfl, ?_, rfl⟩
  intro j harr hobj
  cases j with
  | arr items => exact absurd rfl (harr items)
  | obj fields => exact absurd rfl (hobj fields)
  | _ => rfl

/-- Witness for C3 at concrete parsed values. -/
theorem response_shape_coercion_witness :
    coerceMaterials (Json.arr [Json.num 1, Json.num 2]) = some [Json.num 1, Json.num 2] ∧
    coerceMaterials (Json.obj [("a", Json.num 1)]) = some [Json.obj [("a", Json.num 1)]] ∧
    coerceMaterials (Json.str "scalar") = none ∧
    parsedMaterials none = none := by
  have h := response_shape_coercion
  exact ⟨h.1 _, h.2.1 _,
    h.2.2.1 (Json.str "scalar") (fun _ e => nomatch e) (fun _ e => nomatch e),
    h.2.2.2⟩

/-- C10: when the candidate file does not exist, `process_pdf` returns `None`
before any service interaction: the extraction service is not contacted and
the checkpoint is left exactly as it was — the document lands neither in the
processed set nor in the failure list. -/
theorem process_pdf_missing_file (svc : SvcOutcome)
    (parseJson : String → Option Json) (now provider : String)
    (cp : Checkpoint) (pdfName : String) :
    processPdf false svc parseJson now provider cp pdfName = (none, cp, false) := rfl

theorem mem_squeezeSpaces {c : Char} {l : List Char} (h : c ∈ squeezeSpaces l) :
    c ∈ l := by
  induction l with
  | nil => exact h
  | cons a rest ih =>
    rw [squeezeSpaces] at h
    split at h
    · exact List.mem_cons_of_mem a (ih h)
    · rcases List.mem_cons.mp h with rfl | h'
      · exact List.mem_cons_self _ _
      · exact List.mem_cons_of_mem a (ih h')

theorem stripWhite_subset (l : List Char) : stripWhite l ⊆ l := by
  intro c hc
  unfold stripWhite at hc
  rw [List.mem_reverse] at hc
  have h1 := (List.dropWhile_sublist _).subset hc
  rw [List.mem_reverse] at h1
  exact (List.dropWhile_sublist _).subset h1

theorem stripChars_subset (chars : List Char) (l : List Char) :
    stripChars chars l ⊆ l := by
  intro c hc
  unfold stripChars at hc
  rw [List.mem_reverse] at hc
  have h1 := (List.dropWhile_sublist _).subset hc
  rw [List.mem_reverse] at h1
  exact (List.dropWhile_sublist _).subset h1

theorem cutAtLastSpace_subset (l : List Char) : cutAtLastSpace l ⊆ l := by
  intro c hc
  unfold cutAtLastSpace at hc
  split at hc
  · rw [List.mem_reverse] at hc
    have h1 := List.drop_subset _ _ hc
    have h2 := (List.dropWhile_sublist _).subset h1
    rw [List.mem_reverse] at h2
    exact h2
  · exact hc

theorem cleanCore_no_invalid {c : Char} {l : List Char} (h : c ∈ cleanCore l) :
    c ∉ invalidChars := by
  unfold cleanCore at h
  have h1 := stripChars_subset _ _ h
  have h2 := stripWhite_subset _ h1
  have h3 := mem_squeezeSpaces h2
  rw [List.mem_map] at h3
  obtain ⟨a, ha, rfl⟩ := h3
  have hfa := List.of_mem_filter ha
  by_cases hsp : pyIsSpace a
  · simp only [hsp, if_true]
    decide
  · simp only [hsp, if_false]
    simpa using hfa

theorem dropWhile_head_false {p : Char → Bool} {l : List Char} {a : Char}
    {t : List Char} (h : l.dropWhile p = a :: t) : p a = false := by
  induction l with
  | nil => cases h
  | cons b l' ih =>
    rw [List.dropWhile_cons] at h
    split at h
    · exact ih h
    · next hb =>
      cases h
      simpa using hb

theorem stripBack_decomp (p : Char → Bool) (m : List Char) :
    ∃ u, m = ((m.reverse.dropWhile p).reverse) ++ u ∧ ∀ x ∈ u, p x = true := by
  refine ⟨(m.reverse.takeWhile p).reverse, ?_, ?_⟩
  · conv_lhs => rw [← List.reverse_reverse m,
      ← List.takeWhile_append_dropWhile (p := p) (l := m.reverse)]
    rw [List.reverse_append]
  · intro x hx
    rw [List.mem_reverse] at hx
    exact List.mem_takeWhile_imp hx

theorem stripChars_head (chars l : List Char) {h : Char} {t : List Char}
    (he : stripChars chars l = h :: t) : h ∉ chars := by
  intro hmem
  obtain ⟨u, hu, -⟩ :=
    stripBack_decomp (fun c => decide (c ∈ chars)) (l.dropWhile (fun c => decide (c ∈ chars)))
  unfold stripChars at he
  rw [he] at hu
  have hstep : l.dropWhile (fun c => decide (c ∈ chars)) = h :: (t ++ u) := by
    rw [hu]; rfl
  have := dropWhile_head_false hstep
  simp at this
  exact this hmem

theorem cleanCore_head {l : List Char} {h : Char} {t : List Char}
    (he : cleanCore l = h :: t) : h ≠ '.' ∧ h ≠ ' ' := by
  have := stripChars_head ['.', ' '] _ he
  simp at this
  exact this

theorem dropWhile_until_space {m : List Char} (h : ' ' ∈ m) :
    ∃ d', m.dropWhile (fun c => decide (c ≠ ' ')) = ' ' :: d' := by
  induction m with
  | nil => cases h
  | cons a m' ih =>
    by_cases ha : a = ' '
    · subst ha
      exact ⟨m', by simp [List.dropWhile_cons]⟩
    · have h' : ' ' ∈ m' := by
        rcases List.mem_cons.mp h with he | hm
        · exact absurd he.symm ha
        · exact hm
      obtain ⟨d', hd⟩ := ih h'
      refine ⟨d', ?_⟩
      rw [List.dropWhile_cons, if_pos (by simpa using ha), hd]

theorem cutAtLastSpace_spec {l : List Char} (h : ' ' ∈ l) :
    ∃ w, l = cutAtLastSpace l ++ ' ' :: w ∧ ' ' ∉ w := by
  have hrev : ' ' ∈ l.reverse := List.mem_reverse.mpr h
  obtain ⟨d', hd⟩ := dropWhile_until_space hrev
  refine ⟨(l.reverse.takeWhile (fun c => decide (c ≠ ' '))).reverse, ?_, ?_⟩
  · unfold cutAtLastSpace
    rw [if_pos h, hd]
    conv_lhs => rw [← List.reverse_reverse l,
      ← List.takeWhile_append_dropWhile (p := fun c => decide (c ≠ ' ')) (l := l.reverse)]
    rw [hd, List.reverse_append]
    simp
  · intro hw
    rw [List.mem_reverse] at hw
    have := List.mem_takeWhile_imp hw
    simp at this

theorem cutAtLastSpace_length_le (l : List Char) :
    (cutAtLastSpace l).length ≤ l.length := by
  unfold cutAtLastSpace
  split
  · rw [List.length_reverse]
    calc ((l.reverse.dropWhile _).drop 1).length
        ≤ (l.reverse.dropWhile (fun c => decide (c ≠ ' '))).length := by
          rw [List.length_drop]; omega
      _ ≤ l.reverse.length := (List.dropWhile_sublist _).length_le
      _ = l.length := List.length_reverse l
  · exact le_refl _

theorem mk_data (l : List Char) : (String.mk l).data = l := rfl

theorem mk_length (l : List Char) : (String.mk l).length = l.length := rfl

theorem clean_filename_def (s : String) (maxLen : Nat) :
    clean_filename s maxLen =
      String.mk
        (if truncateClean (cleanCore s.data) maxLen = [] then "Untitled".data
         else truncateClean (cleanCore s.data) maxLen) := rfl

theorem clean_filename_data_of_ne (s : String) (maxLen : Nat)
    (h0 : truncateClean (cleanCore s.data) maxLen ≠ []) :
    (clean_filename s maxLen).data = truncateClean (cleanCore s.data) maxLen := by
  simp [clean_filename, h0, mk_data]

/-- C6 (amended): `clean_filename` output never contains a reserved character
and is never empty; whenever the output is not the `"Untitled"` fallback its
length is at most the bound; and truncation cuts at the last space of the
truncated prefix — the next character of the cleaned text is a space — with
hard truncation exactly when the prefix contains no space.  (The `"Untitled"`
fallback itself has length 8 and may exceed a smaller bound; see the
counterexample.) -/
theorem clean_filename_guarantees (s : String) (maxLen : Nat) :
    (∀ c ∈ (clean_filename s maxLen).data, c ∉ invalidChars) ∧
    (clean_filename s maxLen).data ≠ [] ∧
    (clean_filename s maxLen ≠ "Untitled" →
      (clean_filename s maxLen).length ≤ maxLen) ∧
    (maxLen < (cleanCore s.data).length → ' ' ∈ (cleanCore s.data).take maxLen →
      ∃ w, cleanCore s.data = (clean_filename s maxLen).data ++ ' ' :: w) ∧
    (maxLen < (cleanCore s.data).length → ' ' ∉ (cleanCore s.data).take maxLen →
      0 < maxLen →
      (clean_filename s maxLen).data = (cleanCore s.data).take maxLen) := by
  refine ⟨?_, ?_, ?_, ?_, ?_⟩
  · intro c hc
    by_cases h0 : truncateClean (cleanCore s.data) maxLen = []
    · rw [show (clean_filename s maxLen).data = "Untitled".data by
        simp [clean_filename, h0, mk_data]] at hc
      have hok : ∀ x ∈ "Untitled".data, x ∉ invalidChars := by decide
      exact hok c hc
    · rw [clean_filename_data_of_ne s maxLen h0] at hc
      unfold truncateClean at hc
      split at hc
      · have h1 := cutAtLastSpace_subset _ hc
        have h2 := List.take_subset _ _ h1
        exact cleanCore_no_invalid h2
      · exact cleanCore_no_invalid hc
  · by_cases h0 : truncateClean (cleanCore s.data) maxLen = []
    · rw [show (clean_filename s maxLen).data = "Untitled".data by
        simp [clean_filename, h0, mk_data]]
      decide
    · rw [clean_filename_data_of_ne s maxLen h0]
      exact h0
  · intro hne
    by_cases h0 : truncateClean (cleanCore s.data) maxLen = []
    · exact absurd (by simp [clean_filename, h0] : clean_filename s maxLen = "Untitled") hne
    · rw [clean_filename_def, mk_length, if_neg h0]
      unfold truncateClean
      split
      · calc (cutAtLastSpace ((cleanCore s.data).take maxLen)).length
            ≤ ((cleanCore s.data).take maxLen).length := cutAtLastSpace_length_le _
          _ ≤ maxLen := List.length_take_le _ _
      · next hnlt => omega
  · intro hlt hsp
    obtain ⟨w0, hw0, hnw0⟩ := cutAtLastSpace_spec hsp
    have htne : cleanCore s.data ≠ [] := by
      intro he
      rw [he] at hlt
      simp at hlt
    obtain ⟨h1, rest, hhd⟩ : ∃ h1 rest, cleanCore s.data = h1 :: rest := by
      cases hc : cleanCore s.data with
      | nil => exact absurd hc htne
      | cons x xs => exact ⟨x, xs, rfl⟩
    have hne0 : maxLen ≠ 0 := by
      intro h0
      rw [h0] at hsp
      simp at hsp
    have hh1 : h1 ≠ ' ' := (cleanCore_head hhd).2
    have hpre : (cleanCore s.data).take maxLen = h1 :: rest.take (maxLen - 1) := by
      rw [hhd]
      obtain ⟨m, rfl⟩ : ∃ m, maxLen = m + 1 := ⟨maxLen - 1, by omega⟩
      rfl
    have hcutne : cutAtLastSpace ((cleanCore s.data).take maxLen) ≠ [] := by
      intro hc0
      rw [hc0, List.nil_append, hpre] at hw0
      exact hh1 (List.head_eq_of_cons_eq hw0)
    have htr : truncateClean (cleanCore s.data) maxLen =
        cutAtLastSpace ((cleanCore s.data).take maxLen) := by
      unfold truncateClean
      rw [if_pos hlt]
    have hdata : (clean_filename s maxLen).data =
        cutAtLastSpace ((cleanCore s.data).take maxLen) := by
      rw [clean_filename_data_of_ne s maxLen (htr ▸ hcutne), htr]
    rw [hdata]
    set cut := cutAtLastSpace ((cleanCore s.data).take maxLen) with hcutdef
    refine ⟨w0 ++ (cleanCore s.data).drop maxLen, ?_⟩
    conv_lhs => rw [← List.take_append_drop maxLen (cleanCore s.data)]
    rw [hw0]
    simp [List.append_assoc]
  · intro hlt hnsp hpos
    have h0 : truncateClean (cleanCore s.data) maxLen =
        (cleanCore s.data).take maxLen := by
      unfold truncateClean
      rw [if_pos hlt]
      unfold cutAtLastSpace
      rw [if_neg hnsp]
    have hne : (cleanCore s.data).take maxLen ≠ [] := by
      intro he
      have hl := congrArg List.length he
      simp only [List.length_take, List.length_nil] at hl
      rcases Nat.min_eq_zero_iff.mp hl with h | h
      · omega
      · omega
    rw [clean_filename_data_of_ne s maxLen (h0 ▸ hne), h0]

/-- Witness for C6 at two concrete inputs: a word-boundary truncation and a
hard truncation. -/
theorem clean_filename_guarantees_witness :
    ((∀ c ∈ (clean_filename "Hello World Foo" 9).data, c ∉ invalidChars) ∧
      (clean_filename "Hello World Foo" 9).data ≠ [] ∧
      (∃ w, cleanCore "Hello World Foo".data =
        (clean_filename "Hello World Foo" 9).data ++ ' ' :: w) ∧
      (clean_filename "Hello World Foo" 9).length ≤ 9) ∧
    (clean_filename "aaabbb cc" 4).data = (cleanCore "aaabbb cc".data).take 4 := by
  have h1 := clean_filename_guarantees "Hello World Foo" 9
  have h2 := clean_filename_guarantees "aaabbb cc" 4
  refine ⟨⟨h1.1, h1.2.1, h1.2.2.2.1 (by decide) (by decide), h1.2.2.1 (by decide)⟩,
    h2.2.2.2.2 (by decide) (by decide) (by decide)⟩

/-- Counterexample to C6 as stated: with bound 5 and empty input the cleaned
text is empty, so the `"Untitled"` fallback is returned, whose length 8
exceeds the bound. -/
theorem clean_filename_bound_cex :
    clean_filename "" 5 = "Untitled" ∧ 5 < (clean_filename "" 5).length := by
  constructor
  · rfl
  · decide

theorem length_takeWhile_le (p : Char → Bool) (l l' : List Char) :
    (l.takeWhile p).length ≤ ((l ++ l').takeWhile p).length := by
  induction l with
  | nil => simp
  | cons a t ih =>
    rw [List.cons_append, List.takeWhile_cons, List.takeWhile_cons]
    split
    · simpa using ih
    · simp

theorem isStandardizedL_append {l : List Char} (l' : List Char)
    (h : isStandardizedL l = true) : isStandardizedL (l ++ l') = true := by
  unfold isStandardizedL at h ⊢
  rw [Bool.and_eq_true] at h ⊢
  obtain ⟨h1, h2⟩ := h
  rw [decide_eq_true_eq] at h1
  have hlen : 3 ≤ l.length := by
    have hl3 : (3 : Nat) ⊓ l.length = 3 := by
      simpa using congrArg List.length h1
    omega
  constructor
  · rw [decide_eq_true_eq, List.take_append_of_le_length hlen, h1]
  · rw [decide_eq_true_eq] at h2 ⊢
    rw [List.drop_append_of_le_length hlen]
    exact le_trans h2 (length_takeWhile_le _ _ _)

/-- Counterexample to C5 as stated: the canonical no-identifier name produced
by the rename pass itself does not match the skip pattern (which only
recognises names starting with a DOI shape), so such a file is not skipped on
the next pass. -/
theorem canonical_no_doi_not_skipped_cex :
    canonicalName none "Sample Title" = "NO_DOI - Sample Title.pdf" ∧
    isStandardized "NO_DOI - Sample Title.pdf" = false := by
  constructor
  · decide
  · decide

/-- C5 (amended): the skip test of the rename pass recognises exactly the
DOI-prefixed canonical names: whenever the cleaned DOI passes the skip test,
the canonical name built from it is skipped on later passes; a canonical
`NO_DOI - title.pdf` name is never skipped — such documents are renamed
again by a second pass rather than left alone. -/
theorem rename_skip_pattern_amended (d t : String)
    (h : isStandardized (clean_filename d 50) = true) :
    isStandardized (canonicalName (some d) t) = true ∧
    (∀ t', isStandardized (canonicalName none t') = false) := by
  constructor
  · unfold isStandardized
    rw [show (canonicalName (some d) t).data =
        (clean_filename d 50).data ++
          (" - ".data ++ ((clean_filename t 100).data ++ ".pdf".data)) from by
      simp [canonicalName, String.data_append, List.append_assoc]]
    exact isStandardizedL_append _ h
  · intro t'
    unfold isStandardized
    rw [show (canonicalName none t').data =
        "NO_DOI - ".data ++ ((clean_filename t' 150).data ++ ".pdf".data) from by
      simp [canonicalName, String.data_append, List.append_assoc]]
    unfold isStandardizedL
    rw [List.take_append_of_le_length (by decide)]
    simp

/-- Witness for C5 (amended) at a concrete DOI and title. -/
theorem rename_skip_pattern_amended_witness :
    isStandardized (clean_filename "10.1234/abc" 50) = true ∧
    isStandardized (canonicalName (some "10.1234/abc") "T") = true ∧
    isStandardized (canonicalName none "T") = false := by
  have h := rename_skip_pattern_amended "10.1234/abc" "T" (by decide)
  exact ⟨by decide, h.1, h.2 "T"⟩

theorem pollFile_const_processing (fuel k : Nat) :
    pollFile (fun _ => GeminiFileState.processing) k fuel = none := by
  induction fuel generalizing k with
  | zero => rfl
  | succ f ih =>
    rw [pollFile, if_pos rfl]
    exact ih (k + 1)

theorem pollFile_some_ne_processing (observe : Nat → GeminiFileState)
    (s : GeminiFileState) (fuel k : Nat)
    (h : pollFile observe k fuel = some s) : s ≠ GeminiFileState.processing := by
  induction fuel generalizing k with
  | zero => cases h
  | succ f ih =>
    rw [pollFile] at h
    split at h
    · exact ih (k + 1) h
    · next hne =>
      cases h
      exact hne

theorem pollFile_first_exit (observe : Nat → GeminiFileState) (m : Nat) :
    ∀ k fuel, (∀ j, j < m → observe (k + j) = GeminiFileState.processing) →
      observe (k + m) ≠ GeminiFileState.processing → m < fuel →
      pollFile observe k fuel = some (observe (k + m)) := by
  induction m with
  | zero =>
    intro k fuel _ hterm hfuel
    obtain ⟨f, rfl⟩ : ∃ f, fuel = f + 1 := ⟨fuel - 1, by omega⟩
    rw [pollFile, if_neg (by simpa using hterm), Nat.add_zero]
  | succ m ih =>
    intro k fuel hbefore hterm hfuel
    obtain ⟨f, rfl⟩ : ∃ f, fuel = f + 1 := ⟨fuel - 1, by omega⟩
    rw [pollFile, if_pos (by simpa using hbefore 0 (Nat.succ_pos m))]
    have hb : ∀ j, j < m → observe (k + 1 + j) = GeminiFileState.processing := by
      intro j hj
      have := hbefore (j + 1) (by omega)
      rwa [show k + (j + 1) = k + 1 + j by omega] at this
    have ht : observe (k + 1 + m) ≠ GeminiFileState.processing := by
      rwa [show k + 1 + m = k + (m + 1) by omega]
    have := ih (k + 1) f hb ht (by omega)
    rwa [show k + 1 + m = k + (m + 1) by omega] at this

/-- Counterexample to C4 as stated: against a service that never leaves
PROCESSING, the client is still polling after 302 checks — more than 300
elapsed time units — with no terminal state and no timeout error raised.
The 300-unit timeout in the source bounds only the later `generate_content`
request, not this wait loop. -/
theorem poll_no_timeout_cex :
    pollFile (fun _ => GeminiFileState.processing) 0 302 = none :=
  pollFile_const_processing 302 0

/-- C4 (amended): the client polls at a fixed one-unit interval while the
service reports PROCESSING and exits at the first non-PROCESSING
observation, whose state it returns; a FAILED state raises the
extraction-service error and any other terminal state proceeds; but the wait
loop itself is unbounded — it never raises a timeout, and against a service
that stays in PROCESSING forever it never terminates.  The 300-unit timeout
configures only the subsequent generation request. -/
theorem poll_loop_amended (observe : Nat → GeminiFileState) (m : Nat)
    (hbefore : ∀ j, j < m → observe j = GeminiFileState.processing)
    (hterm : observe m ≠ GeminiFileState.processing) :
    (∀ fuel, m < fuel → pollFile observe 0 fuel = some (observe m)) ∧
    (∀ s fuel k, pollFile observe k fuel = some s →
      s ≠ GeminiFileState.processing) ∧
    (∀ fuel k, pollFile (fun _ => GeminiFileState.processing) k fuel = none) ∧
    geminiAfterWait GeminiFileState.failed =
      Except.error "Gemini processing failed state" ∧
    (∀ s, s ≠ GeminiFileState.failed → geminiAfterWait s = Except.ok ()) := by
  refine ⟨?_, ?_, ?_, rfl, ?_⟩
  · intro fuel hfuel
    have := pollFile_first_exit observe m 0 fuel (by simpa using hbefore)
      (by simpa using hterm) hfuel
    simpa using this
  · intro s fuel k h
    exact pollFile_some_ne_processing observe s fuel k h
  · intro fuel k
    exact pollFile_const_processing fuel k
  · intro s hs
    unfold geminiAfterWait
    rw [if_neg hs]

/-- Witness for C4 (amended): a service that is PROCESSING for two checks and
then ready. -/
theorem poll_loop_amended_witness :
    pollFile (fun j => if j < 2 then GeminiFileState.processing
      else GeminiFileState.ready) 0 5 = some GeminiFileState.ready ∧
    pollFile (fun _ => GeminiFileState.processing) 0 302 = none ∧
    geminiAfterWait GeminiFileState.ready = Except.ok () := by
  have h := poll_loop_amended
    (fun j => if j < 2 then GeminiFileState.processing else GeminiFileState.ready)
    2 (by intro j hj; simp [hj]) (by simp)
  exact ⟨h.1 5 (by omega), h.2.2.1 302 0, h.2.2.2.2 _ (by simp)⟩

theorem find_map_self {α : Type} (k : String) (v : α) (d : List (String × α))
    (h : d.any (fun p => decide (p.1 = k)) = true) :
    pyLookup (d.map (fun p => if p.1 = k then (k, v) else p)) k = some v := by
  induction d with
  | nil => simp at h
  | cons p rest ih =>
    by_cases hp : p.1 = k
    · rw [List.map_cons, if_pos hp]
      rw [pyLookup, List.find?_cons_of_pos _ (by simp)]
    · have h' : rest.any (fun p => decide (p.1 = k)) = true := by
        rw [List.any_cons] at h
        simpa [hp] using h
      rw [List.map_cons, if_neg hp]
      rw [pyLookup, List.find?_cons_of_neg _ (by simp [hp])]
      exact ih h'

theorem find_append_single_self {α : Type} (k : String) (v : α)
    (d : List (String × α)) (h : d.any (fun p => decide (p.1 = k)) = false) :
    pyLookup (d ++ [(k, v)]) k = some v := by
  induction d with
  | nil =>
    rw [List.nil_append, pyLookup, List.find?_cons_of_pos _ (by simp)]
  | cons p rest ih =>
    rw [List.any_cons, Bool.or_eq_false_iff] at h
    rw [List.cons_append, pyLookup, List.find?_cons_of_neg _ (by simpa using h.1)]
    exact ih h.2

theorem pyLookup_dictSet_self {α : Type} (d : List (String × α)) (k : String)
    (v : α) : pyLookup (dictSet d k v) k = some v := by
  unfold dictSet
  split
  · next h => exact find_map_self k v d (by simpa using h)
  · next h =>
    exact find_append_single_self k v d (Bool.eq_false_iff.mpr h)

theorem find_map_other {α : Type} (k k' : String) (v : α) (hne : k' ≠ k)
    (d : List (String × α)) :
    pyLookup (d.map (fun p => if p.1 = k then (k, v) else p)) k' = pyLookup d k' := by
  induction d with
  | nil => rfl
  | cons p rest ih =>
    by_cases hp : p.1 = k
    · rw [List.map_cons, if_pos hp]
      rw [pyLookup, List.find?_cons_of_neg _ (by simp [Ne.symm hne]),
        pyLookup, List.find?_cons_of_neg _ (by simp [hp, Ne.symm hne])]
      exact ih
    · by_cases hpk : p.1 = k'
      · rw [List.map_cons, if_neg hp]
        rw [pyLookup, List.find?_cons_of_pos _ (by simp [hpk]),
          pyLookup, List.find?_cons_of_pos _ (by simp [hpk])]
      · rw [List.map_cons, if_neg hp]
        rw [pyLookup, List.find?_cons_of_neg _ (by simp [hpk]),
          pyLookup, List.find?_cons_of_neg _ (by simp [hpk])]
        exact ih

theorem find_append_single_other {α : Type} (k k' : String) (v : α)
    (hne : k' ≠ k) (d : List (String × α)) :
    pyLookup (d ++ [(k, v)]) k' = pyLookup d k' := by
  induction d with
  | nil =>
    rw [List.nil_append, pyLookup, List.find?_cons_of_neg _ (by simp [Ne.symm hne])]
    rfl
  | cons p rest ih =>
    by_cases hpk : p.1 = k'
    · rw [List.cons_append, pyLookup, List.find?_cons_of_pos _ (by simp [hpk]),
        pyLookup, List.find?_cons_of_pos _ (by simp [hpk])]
    · rw [List.cons_append, pyLookup, List.find?_cons_of_neg _ (by simp [hpk]),
        pyLookup, List.find?_cons_of_neg _ (by simp [hpk])]
      exact ih

theorem pyLookup_dictSet_other {α : Type} (d : List (String × α)) (k k' : String)
    (v : α) (hne : k' ≠ k) : pyLookup (dictSet d k v) k' = pyLookup d k' := by
  unfold dictSet
  split
  · exact find_map_other k k' v hne d
  · exact find_append_single_other k k' v hne d

theorem pyLookup_mergeAll_not_mem {α : Type} (b : List (String × α)) :
    ∀ (a : List (String × α)) (k : String), k ∉ b.map Prod.fst →
      pyLookup (dictMergeAll a b) k = pyLookup a k := by
  induction b with
  | nil => intro a k _; rfl
  | cons p rest ih =>
    intro a k hk
    rw [List.map_cons, List.mem_cons] at hk
    push_neg at hk
    have hstep : dictMergeAll a (p :: rest) = dictMergeAll (dictSet a p.1 p.2) rest := rfl
    rw [hstep, ih _ k hk.2]
    exact pyLookup_dictSet_other a p.1 k p.2 hk.1

theorem pyLookup_mergeAll_mem {α : Type} (b : List (String × α)) :
    ∀ (a : List (String × α)) (k : String) (v : α),
      (b.map Prod.fst).Nodup → (k, v) ∈ b →
      pyLookup (dictMergeAll a b) k = some v := by
  induction b with
  | nil => intro a k v _ hmem; cases hmem
  | cons p rest ih =>
    intro a k v hnd hmem
    rw [List.map_cons, List.nodup_cons] at hnd
    have hstep : dictMergeAll a (p :: rest) = dictMergeAll (dictSet a p.1 p.2) rest := rfl
    rcases List.mem_cons.mp hmem with heq | htl
    · subst heq
      rw [hstep, pyLookup_mergeAll_not_mem rest _ k hnd.1]
      exact pyLookup_dictSet_self a k v
    · rw [hstep]
      exact ih _ k v hnd.2 htl

theorem dictSet_keys {α : Type} (d : List (String × α)) (k : String) (v : α) :
    (dictSet d k v).map Prod.fst = d.map Prod.fst ∨
    (dictSet d k v).map Prod.fst = d.map Prod.fst ++ [k] := by
  unfold dictSet
  split
  · left
    rw [List.map_map]
    refine List.map_congr_left ?_
    intro p _
    by_cases hp : p.1 = k
    · simp [hp]
    · simp [hp]
  · right
    simp

theorem mergeAll_keys {α : Type} (b : List (String × α)) :
    ∀ a : List (String × α),
      ∃ t, (dictMergeAll a b).map Prod.fst = a.map Prod.fst ++ t := by
  induction b with
  | nil => intro a; exact ⟨[], by simp [dictMergeAll]⟩
  | cons p rest ih =>
    intro a
    have hstep : dictMergeAll a (p :: rest) = dictMergeAll (dictSet a p.1 p.2) rest := rfl
    obtain ⟨t, ht⟩ := ih (dictSet a p.1 p.2)
    rcases dictSet_keys a p.1 p.2 with h | h
    · exact ⟨t, by rw [hstep, ht, h]⟩
    · exact ⟨p.1 :: t, by rw [hstep, ht, h, List.append_assoc]; rfl⟩

/-- C8: every record is re-built as the provenance dict merged with the
extracted record: all original fields keep their values (so on a field-name
collision the extracted value overwrites the provenance value), provenance
fields not present in the record keep their provenance values, and the three
provenance keys are prepended — they are the first three keys of the output
record. -/
theorem stamp_record_provenance (pdfName now provider : String)
    (item : List (String × Json)) (hnd : (item.map Prod.fst).Nodup) :
    (∀ k v, (k, v) ∈ item →
      pyLookup (stampRecord pdfName now provider item) k = some v) ∧
    (∀ k v, (k, v) ∈ provMeta pdfName now provider → k ∉ item.map Prod.fst →
      pyLookup (stampRecord pdfName now provider item) k = some v) ∧
    ((stampRecord pdfName now provider item).map Prod.fst).take 3 =
      ["source_pdf", "extracted_at", "provider"] := by
  refine ⟨?_, ?_, ?_⟩
  · intro k v hm
    exact pyLookup_mergeAll_mem item _ k v hnd hm
  · intro k v hm hk
    rw [show stampRecord pdfName now provider item =
      dictMergeAll (provMeta pdfName now provider) item from rfl,
      pyLookup_mergeAll_not_mem item _ k hk]
    rcases (by simpa [provMeta, Prod.ext_iff] using hm :
        (k = "source_pdf" ∧ v = Json.str pdfName) ∨
        (k = "extracted_at" ∧ v = Json.str now) ∨
        (k = "provider" ∧ v = Json.str provider)) with
      ⟨rfl, rfl⟩ | ⟨rfl, rfl⟩ | ⟨rfl, rfl⟩
    · rfl
    · rfl
    · rfl
  · obtain ⟨t, ht⟩ := mergeAll_keys item (provMeta pdfName now provider)
    rw [show stampRecord pdfName now provider item =
      dictMergeAll (provMeta pdfName now provider) item from rfl, ht]
    rfl

/-- Witness for C8: a record with one fresh field and one field colliding
with the `provider` provenance key. -/
theorem stamp_record_provenance_witness :
    pyLookup (stampRecord "doc.pdf" "2024-01-01" "gemini"
      [("material", Json.str "X"), ("provider", Json.str "override")])
      "material" = some (Json.str "X") ∧
    pyLookup (stampRecord "doc.pdf" "2024-01-01" "gemini"
      [("material", Json.str "X"), ("provider", Json.str "override")])
      "provider" = some (Json.str "override") ∧
    pyLookup (stampRecord "doc.pdf" "2024-01-01" "gemini"
      [("material", Json.str "X"), ("provider", Json.str "override")])
      "source_pdf" = some (Json.str "doc.pdf") ∧
    ((stampRecord "doc.pdf" "2024-01-01" "gemini"
      [("material", Json.str "X"), ("provider", Json.str "override")]).map
        Prod.fst).take 3 = ["source_pdf", "extracted_at", "provider"] := by
  have h := stamp_record_provenance "doc.pdf" "2024-01-01" "gemini"
    [("material", Json.str "X"), ("provider", Json.str "override")] (by decide)
  refine ⟨h.1 "material" (Json.str "X") (List.mem_cons_self _ _),
    h.1 "provider" (Json.str "override")
      (List.mem_cons_of_mem _ (List.mem_cons_self _ _)),
    h.2.1 "source_pdf" (Json.str "doc.pdf") (List.mem_cons_self _ _) (by decide),
    h.2.2⟩

/-- C7: `get_unique_path` returns the candidate unchanged when it does not
exist; the returned path never exists at call time; and when the candidate
exists, the result is `stem (2+k)ext` for the least `k` whose candidate is
free — counters start at 2 and are tried in order without skipping, so after
`N` colliding paths (the base plus `k` numbered candidates) the chosen
disambiguator is exactly `N + 1`.  The embedding is a pure function of the
set of existing paths: nothing is created. -/
theorem get_unique_path_spec (occupied : List String) (stem ext : String) :
    (stem ++ ext ∉ occupied → get_unique_path occupied stem ext = stem ++ ext) ∧
    get_unique_path occupied stem ext ∉ occupied ∧
    (stem ++ ext ∈ occupied → ∃ k,
      get_unique_path occupied stem ext = candName stem ext (2 + k) ∧
      candName stem ext (2 + k) ∉ occupied ∧
      ∀ j, j < k → candName stem ext (2 + j) ∈ occupied) := by
  refine ⟨?_, ?_, ?_⟩
  · intro h
    unfold get_unique_path
    rw [if_neg h]
  · unfold get_unique_path
    split
    · exact Nat.find_spec (candName_free_exists occupied stem ext)
    · next h => exact h
  · intro h
    unfold get_unique_path
    rw [if_pos h]
    refine ⟨Nat.find (candName_free_exists occupied stem ext), rfl,
      Nat.find_spec (candName_free_exists occupied stem ext), ?_⟩
    intro j hj
    have := Nat.find_min (candName_free_exists occupied stem ext) hj
    simpa using this

/-- Witness for C7: a base name colliding twice picks disambiguator 3, and a
free base name is returned unchanged. -/
theorem get_unique_path_spec_witness :
    get_unique_path ["a.pdf", "a (2).pdf"] "a" ".pdf" ∉ ["a.pdf", "a (2).pdf"] ∧
    get_unique_path [] "a" ".pdf" = "a.pdf" ∧
    (∃ k, get_unique_path ["a.pdf", "a (2).pdf"] "a" ".pdf" =
        candName "a" ".pdf" (2 + k) ∧
      candName "a" ".pdf" (2 + k) ∉ ["a.pdf", "a (2).pdf"] ∧
      ∀ j, j < k → candName "a" ".pdf" (2 + j) ∈ ["a.pdf", "a (2).pdf"]) := by
  have h1 := get_unique_path_spec ["a.pdf", "a (2).pdf"] "a" ".pdf"
  have h2 := get_unique_path_spec [] "a" ".pdf"
  exact ⟨h1.2.1, (h2.1 (by decide)).trans (by decide), h1.2.2 (by decide)⟩
